import Mathlib

/-!
# Verification of the resumeRAG indexing and retrieval engine

Shallow embedding of the indexing engine of the resumeRAG repository
(`app/services/indexing/`): the keyword (BM25) indexer, the semantic
indexer, the enhanced semantic indexer and the indexer factory, together
with proofs about the behaviour of these operations.

Modelling conventions:
* Python dicts with string keys are modelled as association lists
  (`Meta`) whose lookup takes the first matching key, or — when the dict
  is only ever read pointwise and never iterated — as functions with a
  default of `0`.
* Python floats are modelled as exact rationals; the transcendental
  `math.log` used by BM25 scoring is modelled by `Real.log`, so BM25
  scores live in `ℝ`.
* The external embedding / vector-store adapter (ChromaDB via langchain)
  is modelled as an append-only list of entries plus an abstract
  similarity oracle; the engine only assumes that the oracle returns at
  most `k` stored entries matching the metadata filter.
* The langchain `RecursiveCharacterTextSplitter` and the regex-based
  multi-strategy chunker of the enhanced indexer are kept abstract as
  function parameters: no claim below depends on the chunks they
  produce, only on the metadata the engine attaches and on the state
  fields the engine updates.
* `uuid.uuid4()` document ids and `datetime.utcnow()` timestamps are
  passed as explicit parameters.
* Exceptions: the modelled operations are total, matching the source
  paths in which no exception is raised; the `try/except` wrappers only
  matter off these paths and are noted where relevant.
-/

namespace ResumeRAG

/-- Metadata dictionaries: string keys to (stringly modelled) values,
first-match lookup. -/
abbrev Meta := List (String × String)

/-- `d.get(k)` on a Python dict modelled as an association list. -/
def metaGet (m : Meta) (k : String) : Option String :=
  (m.find? (fun p => p.1 = k)).map (fun p => p.2)

/-- `base.update(upd)` observed through `metaGet`: entries of `upd` take
precedence over entries of `base`. -/
def dictUpdate (base upd : Meta) : Meta := upd ++ base

/-- Exact-match metadata filtering as applied by the vector-store
adapter and by the keyword indexer: every key of the filter dict must be
present in `md` with the filter's value for that key.  Values of
duplicate keys are read through `metaGet`, mirroring dict semantics
where a later `update` replaces the value of an existing key. -/
def matchesFilter (md f : Meta) : Bool :=
  f.all (fun p => metaGet md p.1 == metaGet f p.1)

/-- `IndexedDocument` (base_indexer.py); `created_at` is omitted, it is
never read. -/
structure IndexedDoc where
  doc_id : String
  content : String
  metadata : Meta
  chunk_index : Nat
deriving DecidableEq, Repr

/-- `SearchResult` (base_indexer.py), parametrised by the score type:
`ℝ` for BM25 scores, `ℚ` for adapter-provided scores. -/
structure SearchResult (α : Type) where
  content : String
  score : α
  metadata : Meta
  doc_id : String
  chunk_index : Nat

deriving instance DecidableEq for SearchResult
deriving instance Repr for SearchResult

/-- `index_stats` as initialised in `BaseIndexer.__init__` and reset by
`delete_session_data`. -/
structure IndexStats where
  documents_indexed : Nat
  chunks_created : Nat
  last_updated : Option String
  strategy : String
deriving DecidableEq, Repr

/-- The all-zero statistics record for a given strategy name. -/
def initStats (strategy : String) : IndexStats :=
  { documents_indexed := 0, chunks_created := 0, last_updated := none,
    strategy := strategy }

/-- `BaseIndexer.update_stats`. -/
def updateStats (s : IndexStats) (documentsAdded chunksAdded : Nat)
    (ts : String) : IndexStats :=
  { s with documents_indexed := s.documents_indexed + documentsAdded,
           chunks_created := s.chunks_created + chunksAdded,
           last_updated := some ts }

/-- Chunk ids `f"{doc_id}_{i}"`. -/
def chunkId (docId : String) (i : Nat) : String :=
  docId ++ "_" ++ toString i

/-- Python `str.lower()`, modelled on the character list (the
position-based `String.toLower` does not reduce in the kernel). -/
def pyLower (s : String) : String :=
  String.mk (s.toList.map Char.toLower)

/-- Python `str.strip()`: drop leading and trailing whitespace. -/
def pyStrip (s : String) : String :=
  String.mk
    (((s.toList.dropWhile Char.isWhitespace).reverse.dropWhile
        Char.isWhitespace).reverse)

/-- Python `str.split()` (no argument): split on whitespace runs,
dropping empty pieces. -/
def pySplitWs (s : String) : List String :=
  ((s.toList.splitOnP Char.isWhitespace).filter (fun l => l ≠ [])).map
    String.mk

/-- Decode of a decimal numeral, for reading the stringly-modelled
`chunk_index` metadata value back as a number. -/
def pyToNat? (s : String) : Option Nat :=
  if s ≠ "" ∧ s.toList.all Char.isDigit then
    some (s.toList.foldl (fun n c => n * 10 + (c.toNat - 48)) 0)
  else none

/-! ## Keyword indexer (keyword_indexer.py) -/

/-- A word character in the sense of the regex `\w`. -/
def isWordChar (c : Char) : Bool := c.isAlphanum || c = '_'

/-- `_preprocess_text`: lowercase, then `re.findall(r'\b\w+\b', text)`,
i.e. the maximal runs of word characters. -/
def preprocessText (text : String) : List String :=
  (((pyLower text).toList.splitOnP (fun c => !isWordChar c)).filter
      (fun l => l ≠ [])).map String.mk

/-- Sentence fragments produced by `re.split(r'[.!?]+', text)`; splitting
at each delimiter character produces extra empty fragments that the
packing loop skips, so the result is observationally identical. -/
def splitSentenceFragments (text : String) : List String :=
  (text.toList.splitOnP (fun c => c = '.' || c = '!' || c = '?')).map String.mk

/-- One step of the sentence-packing loop body of `_chunk_text`. The
accumulator holds (chunks emitted so far, current chunk). -/
def chunkStep (chunkSize : Nat) (acc : List String × String) (sRaw : String) :
    List String × String :=
  let s := pyStrip sRaw
  if s = "" then acc
  else if acc.2.length + s.length < chunkSize then
    (acc.1, if acc.2 = "" then s else acc.2 ++ " " ++ s)
  else
    ((if acc.2 = "" then acc.1 else acc.1 ++ [acc.2]), s)

/-- `_chunk_text`: sentence split, greedy packing below `chunk_size`,
falling back to the whole input when no chunk was produced. -/
def chunkText (chunkSize : Nat) (text : String) : List String :=
  let r := (splitSentenceFragments text).foldl (chunkStep chunkSize) ([], "")
  let chunks := if r.2 = "" then r.1 else r.1 ++ [r.2]
  if chunks = [] then [text] else chunks

/-- In-place increment of a `Counter`-style association list. -/
def incrCount : List (String × Nat) → String → List (String × Nat)
  | [], w => [(w, 1)]
  | p :: t, w => if p.1 = w then (p.1, p.2 + 1) :: t else p :: incrCount t w

/-- `Counter(words)` as an association list with positive counts. -/
def countWords (ws : List String) : List (String × Nat) :=
  ws.foldl incrCount []

/-- `dict.get(term, 0)` on a term-frequency map. -/
def countOf (m : List (String × Nat)) (t : String) : Nat :=
  ((m.find? (fun p => p.1 = t)).map (fun p => p.2)).getD 0

/-- Pointwise bump of the document-frequency dict:
`df[w] = df.get(w, 0) + 1`. -/
def bumpDF (df : String → Nat) (w : String) : String → Nat :=
  fun t => if t = w then df t + 1 else df t

/-- State of `KeywordIndexer`.  `document_frequencies` is read only
through `.get(term, 0)` and hence modelled as a total function. -/
structure KState where
  session_id : String
  documents : List IndexedDoc
  term_frequencies : List (String × List (String × Nat))
  document_frequencies : String → Nat
  total_documents : Nat
  avg_doc_length : ℚ
  doc_lengths : List (String × Nat)
  index_stats : IndexStats

/-- A fresh `KeywordIndexer(session_id)`. -/
def kInit (sessionId : String) : KState :=
  { session_id := sessionId, documents := [], term_frequencies := [],
    document_frequencies := fun _ => 0, total_documents := 0,
    avg_doc_length := 0, doc_lengths := [],
    index_stats := initStats "KeywordIndexer" }

/-- `_update_avg_doc_length`: mean token count, or the previous value
(always reached as 0 here) when there are no chunks. -/
def recomputeAvg (dls : List (String × Nat)) (old : ℚ) : ℚ :=
  if dls = [] then old
  else ((dls.map (fun p => (p.2 : ℚ))).sum) / (dls.length : ℚ)

/-- Metadata attached to chunk `i` of a document: `chunk_id` and
`chunk_index` override the base metadata, which is the caller metadata
over the session/doc/timestamp defaults (`{**base, **metadata}` with the
later keys winning, observed through lookup). -/
def kChunkMeta (sessionId docId ts : String) (metadata : Meta) (i : Nat) :
    Meta :=
  [("chunk_id", chunkId docId i), ("chunk_index", toString i)] ++ metadata ++
    [("session_id", sessionId), ("doc_id", docId), ("indexed_at", ts)]

/-- Per-chunk body of the loop in `KeywordIndexer.index_document`. -/
def kIndexChunk (sessionId docId ts : String) (metadata : Meta)
    (st : KState) (p : Nat × String) : KState :=
  let cid := chunkId docId p.1
  let ws := preprocessText p.2
  { st with
    documents := st.documents ++
      [{ doc_id := cid, content := p.2,
         metadata := kChunkMeta sessionId docId ts metadata p.1,
         chunk_index := p.1 }],
    term_frequencies := st.term_frequencies ++ [(cid, countWords ws)],
    doc_lengths := st.doc_lengths ++ [(cid, ws.length)],
    document_frequencies := ws.dedup.foldl bumpDF st.document_frequencies }

/-- `KeywordIndexer.index_document`.  `doc_id` (a uuid in the source) and
the timestamp are explicit parameters; `chunkSize` is
`settings.chunk_size`. -/
def kIndexDocument (chunkSize : Nat) (st : KState) (document : String)
    (metadata : Meta) (docId ts : String) : KState :=
  let chunks := chunkText chunkSize document
  let st1 := chunks.enum.foldl (kIndexChunk st.session_id docId ts metadata) st
  { st1 with
    total_documents := st1.total_documents + chunks.length,
    avg_doc_length := recomputeAvg st1.doc_lengths st1.avg_doc_length,
    index_stats := updateStats st1.index_stats 1 chunks.length ts }

/-- The BM25 `k1` parameter. -/
def bm25k1 : ℚ := 3 / 2

/-- The BM25 `b` parameter. -/
def bm25b : ℚ := 3 / 4

/-- One term's contribution inside `_calculate_bm25_score`:
`idf * tf*(k1+1) / (tf + k1*(1 - b + b*(doc_length/avg_doc_length)))`
with `idf = ln((N - df + 0.5) / (df + 0.5))`. -/
noncomputable def bm25TermContribution (tf df N docLen avgLen : ℚ) : ℝ :=
  Real.log (((N : ℝ) - (df : ℝ) + 1 / 2) / ((df : ℝ) + 1 / 2)) *
    (((tf : ℝ) * ((bm25k1 : ℝ) + 1)) /
      ((tf : ℝ) + (bm25k1 : ℝ) *
        (1 - (bm25b : ℝ) + (bm25b : ℝ) * ((docLen : ℝ) / (avgLen : ℝ)))))

/-- `_calculate_bm25_score`: fold over the query terms, skipping terms
absent from the chunk and terms with document frequency 0. -/
noncomputable def calcBM25 (st : KState) (queryTerms : List String)
    (docId : String) : ℝ :=
  match st.term_frequencies.find? (fun e => e.1 = docId) with
  | none => 0
  | some e =>
    let docLen := countOf st.doc_lengths docId
    queryTerms.foldl (fun score t =>
      match e.2.find? (fun p => p.1 = t) with
      | none => score
      | some p =>
        if st.document_frequencies t = 0 then score
        else score + bm25TermContribution (p.2 : ℚ)
          (st.document_frequencies t : ℚ) (st.total_documents : ℚ)
          (docLen : ℚ) st.avg_doc_length) 0

/-- The keyword-search metadata pre-filter: session match plus equality
on every caller-supplied filter pair. -/
def kPassesFilters (st : KState) (md : Meta) (filters : Meta) : Bool :=
  (metaGet md "session_id" == some st.session_id) &&
    filters.all (fun p => metaGet md p.1 == some p.2)

open Classical in
/-- The `scores` list built by `KeywordIndexer.search` before sorting:
documents in ingestion order, filtered, scored, and kept only with a
strictly positive score. -/
noncomputable def scoredCandidates (st : KState) (queryTerms : List String)
    (filters : Meta) : List (IndexedDoc × ℝ) :=
  st.documents.filterMap (fun d =>
    if kPassesFilters st d.metadata filters then
      let s := calcBM25 st queryTerms d.doc_id
      if 0 < s then some (d, s) else none
    else none)

/-- `scores.sort(key=lambda x: x[1], reverse=True)`: a stable descending
sort by score (Python's sort is stable). -/
noncomputable def sortByScoreDesc (l : List (IndexedDoc × ℝ)) :
    List (IndexedDoc × ℝ) :=
  @List.insertionSort _ (fun a b => b.2 ≤ a.2)
    (fun _ _ => Classical.propDecidable _) l

/-- Conversion of a scored document into a `SearchResult`. -/
def kToResult (p : IndexedDoc × ℝ) : SearchResult ℝ :=
  { content := p.1.content, score := p.2, metadata := p.1.metadata,
    doc_id := (metaGet p.1.metadata "doc_id").getD "",
    chunk_index := p.1.chunk_index }

/-- `KeywordIndexer.search`. -/
noncomputable def kSearch (st : KState) (query : String) (topK : Nat)
    (filters : Meta) : List (SearchResult ℝ) :=
  if st.documents = [] then []
  else
    let queryTerms := preprocessText query
    if queryTerms = [] then []
    else
      ((sortByScoreDesc (scoredCandidates st queryTerms filters)).take
        topK).map kToResult

/-- The document-frequency recomputation loop of
`KeywordIndexer.delete_session_data`: a fresh dict, bumped once per key
of every surviving term-frequency map. -/
def recomputeDF (tfs : List (String × List (String × Nat))) : String → Nat :=
  tfs.foldl (fun df e => e.2.foldl (fun df p => bumpDF df p.1) df)
    (fun _ => 0)

/-- `KeywordIndexer.delete_session_data`.  The `except` branch is
unreachable in the model (no operation raises), so the result flag is
always `true`. -/
def kDeleteSessionData (st : KState) : Bool × KState :=
  let isSession := fun (d : IndexedDoc) =>
    metaGet d.metadata "session_id" == some st.session_id
  let sessionDocs := st.documents.filter isSession
  let docs' := st.documents.filter (fun d => !isSession d)
  let tfs' := sessionDocs.foldl
    (fun tfs d => tfs.filter (fun e => e.1 ≠ d.doc_id)) st.term_frequencies
  let dls' := sessionDocs.foldl
    (fun m d => m.filter (fun e => e.1 ≠ d.doc_id)) st.doc_lengths
  (true,
    { st with
      documents := docs'
      term_frequencies := tfs'
      doc_lengths := dls'
      document_frequencies := recomputeDF tfs'
      total_documents := docs'.length
      avg_doc_length := recomputeAvg dls' st.avg_doc_length
      index_stats := initStats "KeywordIndexer" })

/-- Well-formedness of a recorded term-frequency map: distinct term
keys and positive counts, as `Counter` produces. -/
def tfEntryWF (e : String × List (String × Nat)) : Prop :=
  (e.2.map Prod.fst).Nodup ∧ ∀ p ∈ e.2, 0 < p.2

/-- Well-formedness of a keyword-indexer state: distinct chunk ids, the
term-frequency dict keyed exactly by the held chunks (in order), and
well-formed per-chunk term-frequency maps. -/
def kWF (st : KState) : Prop :=
  (st.term_frequencies.map Prod.fst).Nodup ∧
  st.term_frequencies.map Prod.fst =
    st.documents.map IndexedDoc.doc_id ∧
  ∀ e ∈ st.term_frequencies, tfEntryWF e

/-- The document-frequency invariant of the spec:
`documentFrequency[t] == |{c : termFrequency[c][t] > 0}|`. -/
def dfInvariant (st : KState) : Prop :=
  ∀ t, st.document_frequencies t =
    st.term_frequencies.countP (fun e => decide (0 < countOf e.2 t))

/-! ## Vector-store adapter (external collaborator, §6 of the spec) -/

/-- An entry held by the vector store: the chunk text and its metadata,
as handed over by `add_texts(texts, metadatas)`. -/
structure VSEntry where
  text : String
  metadata : Meta
deriving DecidableEq, Repr

/-- The adapter's `similarity_search_with_score(query, k, filter)`
modelled as an abstract oracle over the stored entries. -/
def SimOracle : Type :=
  String → Nat → Meta → List VSEntry → List (VSEntry × ℚ)

/-- The contract the engine relies on: the oracle returns at most `k`
stored entries, every one of which matches the metadata filter. -/
def oracleConforms (o : SimOracle) : Prop :=
  ∀ q k f s, (o q k f s).length ≤ k ∧
    ∀ r ∈ o q k f s, r.1 ∈ s ∧ matchesFilter r.1.metadata f = true

/-- A simple conforming oracle: all filter-matching entries in insertion
order, each with score 1, truncated to `k`. -/
def listOracle : SimOracle := fun _ k f s =>
  ((s.filter (fun e => matchesFilter e.metadata f)).take k).map
    (fun e => (e, (1 : ℚ)))

/-- Conversion of an adapter hit into a `SearchResult`
(`doc.metadata.get("doc_id", "")`, `doc.metadata.get("chunk_index", 0)`). -/
def adapterToResult (p : VSEntry × ℚ) : SearchResult ℚ :=
  { content := p.1.text, score := p.2, metadata := p.1.metadata,
    doc_id := (metaGet p.1.metadata "doc_id").getD "",
    chunk_index := ((metaGet p.1.metadata "chunk_index").bind
      pyToNat?).getD 0 }

/-! ## Semantic indexer (semantic_indexer.py) -/

/-- State of `SemanticIndexer`: the session id, the (session-named)
vector-store collection's entries, the internal document list and the
stats record. -/
structure SState where
  session_id : String
  store : List VSEntry
  documents : List IndexedDoc
  index_stats : IndexStats
deriving DecidableEq, Repr

/-- A fresh `SemanticIndexer(session_id)` over an empty collection. -/
def sInit (sessionId : String) : SState :=
  { session_id := sessionId, store := [], documents := [],
    index_stats := initStats "SemanticIndexer" }

/-- Chunk metadata of the semantic indexers: `chunk_index` and
`chunk_id` override the base metadata, which is the caller metadata over
the session/doc/timestamp defaults. -/
def sChunkMeta (sessionId docId ts : String) (metadata : Meta) (i : Nat) :
    Meta :=
  [("chunk_index", toString i), ("chunk_id", chunkId docId i)] ++ metadata ++
    [("session_id", sessionId), ("doc_id", docId), ("indexed_at", ts)]

/-- `SemanticIndexer.index_document`, parametrised by the langchain text
splitter (`split`), the generated uuid and the timestamp.  Each chunk is
stored internally and handed to the adapter's `add_texts`. -/
def sIndexDocument (split : String → List String) (st : SState)
    (document : String) (metadata : Meta) (docId ts : String) : SState :=
  let chunks := split document
  { st with
    documents := st.documents ++ chunks.enum.map (fun p =>
      { doc_id := docId, content := p.2,
        metadata := sChunkMeta st.session_id docId ts metadata p.1,
        chunk_index := p.1 }),
    store := st.store ++ chunks.enum.map (fun p =>
      { text := p.2,
        metadata := sChunkMeta st.session_id docId ts metadata p.1 }),
    index_stats := updateStats st.index_stats 1 chunks.length ts }

/-- The filter built by `SemanticIndexer.search` (and by
`EnhancedSemanticIndexer._vector_search`):
`{"session_id": sid}` updated with the caller filters. -/
def sSearchFilter (sessionId : String) (filters : Meta) : Meta :=
  dictUpdate [("session_id", sessionId)] filters

/-- `SemanticIndexer.search`: one adapter call, converted 1:1. -/
def sSearch (o : SimOracle) (st : SState) (query : String) (topK : Nat)
    (filters : Meta) : List (SearchResult ℚ) :=
  (o query topK (sSearchFilter st.session_id filters) st.store).map
    adapterToResult

/-- `SemanticIndexer.delete_session_data`: drops the session's documents
from the internal list and resets the stats, but leaves the vector
store untouched (the source only "marks as deleted" and keeps the
ChromaDB collection's contents). -/
def sDeleteSessionData (st : SState) : Bool × SState :=
  (true,
    { st with
      documents := st.documents.filter (fun d =>
        !(metaGet d.metadata "session_id" == some st.session_id))
      index_stats := initStats "SemanticIndexer" })

/-! ## Enhanced semantic indexer (enhanced_semantic_indexer.py) -/

/-- A chunk produced by `_create_multi_strategy_chunks`: content plus
the `type` and `section` tags copied into the chunk metadata. -/
structure ChunkInfo where
  content : String
  ctype : String
  sectionTag : String
deriving DecidableEq, Repr

/-- State of `EnhancedSemanticIndexer`: as the semantic indexer, plus
the raw full text kept for fallback searches. -/
structure EState where
  session_id : String
  store : List VSEntry
  documents : List IndexedDoc
  full_text : String
  index_stats : IndexStats
deriving DecidableEq, Repr

/-- A fresh `EnhancedSemanticIndexer(session_id)`. -/
def eInit (sessionId : String) : EState :=
  { session_id := sessionId, store := [], documents := [], full_text := "",
    index_stats := initStats "EnhancedSemanticIndexer" }

/-- Chunk metadata of the enhanced indexer: additionally carries
`chunk_type` and `chunk_section`. -/
def eChunkMeta (sessionId docId ts : String) (metadata : Meta) (i : Nat)
    (c : ChunkInfo) : Meta :=
  [("chunk_index", toString i), ("chunk_id", chunkId docId i),
   ("chunk_type", c.ctype), ("chunk_section", c.sectionTag)] ++ metadata ++
    [("session_id", sessionId), ("doc_id", docId), ("indexed_at", ts)]

/-- `EnhancedSemanticIndexer.index_document`, parametrised by the
multi-strategy chunker (regex section/contact extraction plus the
recursive splitter; abstract here, no claim depends on its output).  It
overwrites `full_text` with the new document before chunking. -/
def eIndexDocument (chunker : String → List ChunkInfo) (st : EState)
    (document : String) (metadata : Meta) (docId ts : String) : EState :=
  let chunks := chunker document
  { st with
    full_text := document,
    documents := st.documents ++ chunks.enum.map (fun p =>
      { doc_id := docId, content := p.2.content,
        metadata := eChunkMeta st.session_id docId ts metadata p.1 p.2,
        chunk_index := p.1 }),
    store := st.store ++ chunks.enum.map (fun p =>
      { text := p.2.content,
        metadata := eChunkMeta st.session_id docId ts metadata p.1 p.2 }),
    index_stats := updateStats st.index_stats 1 chunks.length ts }

/-- `EnhancedSemanticIndexer._vector_search`: same filter construction
as the semantic indexer. -/
def eVectorSearch (o : SimOracle) (st : EState) (query : String)
    (topK : Nat) (filters : Meta) : List (SearchResult ℚ) :=
  (o query topK (sSearchFilter st.session_id filters) st.store).map
    adapterToResult

/-- The filter of `_contact_search`:
`{"session_id": sid, "chunk_type": "contact"}` updated with the caller
filters. -/
def eContactFilter (sessionId : String) (filters : Meta) : Meta :=
  dictUpdate [("session_id", sessionId), ("chunk_type", "contact")] filters

/-- `EnhancedSemanticIndexer._contact_search`: adapter call with `k = 5`
on contact chunks, each score boosted by `0.1`. -/
def eContactSearch (o : SimOracle) (st : EState) (query : String)
    (filters : Meta) : List (SearchResult ℚ) :=
  (o query 5 (eContactFilter st.session_id filters) st.store).map
    (fun p => adapterToResult (p.1, p.2 + 1 / 10))

/-- `query.lower().split()`: whitespace split dropping empty pieces. -/
def splitWs (s : String) : List String :=
  pySplitWs s

/-- Python `haystack.find(needle)`: index of the first occurrence, or
`none` for `-1`. -/
def strFind (hay pat : List Char) : Option Nat :=
  (List.range (hay.length + 1)).find? (fun i => pat.isPrefixOf (hay.drop i))

/-- Python `haystack.count(needle)` for a nonempty needle:
non-overlapping occurrences scanned from the left. -/
def countOccs (hay pat : List Char) : Nat :=
  match hay with
  | [] => 0
  | c :: t =>
    if h : pat ≠ [] ∧ pat.isPrefixOf (c :: t) then
      countOccs ((c :: t).drop pat.length) pat + 1
    else countOccs t pat
termination_by hay.length
decreasing_by
  · have hp : 0 < pat.length := List.length_pos.mpr h.1
    simp only [List.length_drop, List.length_cons]
    omega
  · simp

/-- The contact-search trigger of `EnhancedSemanticIndexer.search`:
`any(term in query.lower() for term in [...])`, where `in` is substring
containment. -/
def contactTrigger (query : String) : Bool :=
  ["name", "email", "phone", "linkedin", "github"].any
    (fun t => (strFind ((pyLower query).toList) t.toList).isSome)

/-- `EnhancedSemanticIndexer._keyword_search`: scans the stored full
text for each query term and emits a trimmed ±200-character window
around the first occurrence, scored by in-window term count times 0.1.
The caller-supplied filters are accepted and ignored, as in the
source. -/
def eKeywordSearch (st : EState) (query : String) (_filters : Meta) :
    List (SearchResult ℚ) :=
  if st.full_text = "" then []
  else
    let ftLower := (pyLower st.full_text).toList
    (splitWs (pyLower query)).filterMap (fun term =>
      match strFind ftLower term.toList with
      | none => none
      | some idx =>
        let s := idx - 200
        let e := min st.full_text.toList.length (idx + term.length + 200)
        let snippet := pyStrip (String.mk ((st.full_text.toList.drop s).take (e - s)))
        let score := (countOccs (pyLower snippet).toList term.toList : ℚ) * (1 / 10)
        some { content := snippet, score := score,
               metadata := [("doc_id", "fallback"), ("chunk_type", "keyword")],
               doc_id := "fallback", chunk_index := 0 })

/-- The deduplication key of `_deduplicate_results`: the first 100
characters of the content, stripped. -/
def dedupKey (r : SearchResult ℚ) : String :=
  pyStrip (String.mk (r.content.toList.take 100))

/-- The loop of `_deduplicate_results`; `seen` holds the keys kept so
far (a set in the source, observed only through membership). -/
def dedupAux (seen : List String) : List (SearchResult ℚ) →
    List (SearchResult ℚ)
  | [] => []
  | r :: rs =>
    if dedupKey r ∈ seen then dedupAux seen rs
    else r :: dedupAux (dedupKey r :: seen) rs

/-- `EnhancedSemanticIndexer._deduplicate_results`. -/
def dedupResults (l : List (SearchResult ℚ)) : List (SearchResult ℚ) :=
  dedupAux [] l

/-- The merged candidate list of `EnhancedSemanticIndexer.search`:
vector hits, then (conditionally) contact hits, then (when coverage is
below 3) keyword-fallback hits. -/
def eAllCandidates (o : SimOracle) (st : EState) (query : String)
    (topK : Nat) (filters : Meta) : List (SearchResult ℚ) :=
  let all1 := eVectorSearch o st query topK filters
  let all2 := all1 ++
    (if contactTrigger query then eContactSearch o st query filters else [])
  all2 ++ (if all2.length < 3 then eKeywordSearch st query filters else [])

/-- `sorted(unique_results, key=lambda x: x.score, reverse=True)`:
stable descending sort by score. -/
def sortResultsDesc (l : List (SearchResult ℚ)) : List (SearchResult ℚ) :=
  List.insertionSort (fun a b => b.score ≤ a.score) l

/-- `EnhancedSemanticIndexer.search`: merge, deduplicate, sort
descending, truncate to `topK`. -/
def eSearch (o : SimOracle) (st : EState) (query : String) (topK : Nat)
    (filters : Meta) : List (SearchResult ℚ) :=
  (sortResultsDesc (dedupResults (eAllCandidates o st query topK filters))).take
    topK

/-- `EnhancedSemanticIndexer.delete_session_data`: like the semantic
indexer (vector store untouched), additionally clearing `full_text`. -/
def eDeleteSessionData (st : EState) : Bool × EState :=
  (true,
    { st with
      documents := st.documents.filter (fun d =>
        !(metaGet d.metadata "session_id" == some st.session_id))
      full_text := ""
      index_stats := initStats "EnhancedSemanticIndexer" })

/-! ## Indexer factory (indexing_factory.py) -/

/-- The three registered indexer classes. -/
inductive IndexerClass where
  | enhancedSemantic
  | semantic
  | keyword
deriving DecidableEq, Repr

/-- The `_indexer_classes` registry, in source order. -/
def indexerClasses : List (String × IndexerClass) :=
  [("semantic", IndexerClass.enhancedSemantic),
   ("basic_semantic", IndexerClass.semantic),
   ("keyword", IndexerClass.keyword)]

/-- The `ValueError` message for an unknown strategy. -/
def unknownStrategyMsg (strategy : String) : String :=
  "Unknown indexing strategy: " ++ strategy ++ ". Available: " ++
    String.intercalate ", " (indexerClasses.map (fun p => p.1))

/-- `IndexingFactory.create_indexer`: lowercases the strategy name, then
either instantiates the registered class or raises `ValueError`. -/
def createIndexer (strategy : String) : Except String IndexerClass :=
  let s := pyLower strategy
  match indexerClasses.find? (fun p => p.1 = s) with
  | none => Except.error (unknownStrategyMsg s)
  | some p => Except.ok p.2

/-! ## Theorems -/

/-- C9: `IndexingFactory.create_indexer` first case-normalizes the
strategy name; a registered (normalized) name yields the corresponding
indexer class without error, and an unregistered one fails with a
configuration error whose message names every valid strategy choice. -/
theorem createIndexer_spec (strategy : String) :
    (∀ p, indexerClasses.find? (fun q => q.1 = (pyLower strategy)) = some p →
      createIndexer strategy = Except.ok p.2) ∧
    (indexerClasses.find? (fun q => q.1 = (pyLower strategy)) = none →
      createIndexer strategy =
          Except.error (unknownStrategyMsg (pyLower strategy)) ∧
        ∀ k ∈ indexerClasses.map (fun p => p.1),
          k.toList <:+: (unknownStrategyMsg (pyLower strategy)).toList) := by
  constructor
  · intro p hp
    simp only [createIndexer, hp]
  · intro hn
    refine ⟨by simp only [createIndexer, hn], ?_⟩
    intro k hk
    have hmsg : (unknownStrategyMsg (pyLower strategy)).toList =
        ("Unknown indexing strategy: " ++ (pyLower strategy)).toList ++
          (". Available: " ++
            String.intercalate ", " (indexerClasses.map (fun p => p.1))).toList := by
      simp only [unknownStrategyMsg, String.toList, String.data_append,
        List.append_assoc]
    rw [hmsg]
    refine List.IsInfix.trans ?_ ((List.suffix_append _ _).isInfix)
    have : k ∈ ["semantic", "basic_semantic", "keyword"] := hk
    fin_cases this <;> decide

/-- C9 witness: a registered name in non-normalized case is created, and
a concrete unknown name produces the error naming all three registered
strategies. -/
theorem createIndexer_spec_witness :
    createIndexer "KeyWord" = Except.ok IndexerClass.keyword ∧
    (createIndexer "unknown-strategy" =
        Except.error (unknownStrategyMsg "unknown-strategy") ∧
      ∀ k ∈ indexerClasses.map (fun p => p.1),
        k.toList <:+: (unknownStrategyMsg "unknown-strategy").toList) :=
  ⟨(createIndexer_spec "KeyWord").1 ("keyword", IndexerClass.keyword)
      (by decide),
   (createIndexer_spec "unknown-strategy").2 (by decide)⟩

/-- C10: every `index_document` call on the enhanced indexer overwrites
the stored full text with the newly ingested document, so the
keyword-fallback sub-search of any later search scans only the most
recently ingested document: a query none of whose terms occurs in the
latest document yields no fallback result, even for terms that occurred
in an earlier-ingested document. -/
theorem eIndexDocument_overwrites_full_text
    (chunker : String → List ChunkInfo) (st : EState) (d1 d2 : String)
    (m1 m2 : Meta) (id1 ts1 id2 ts2 : String) (q : String) (f : Meta)
    (hq : ∀ t ∈ splitWs (pyLower q),
      strFind ((pyLower d2).toList) t.toList = none) :
    (eIndexDocument chunker (eIndexDocument chunker st d1 m1 id1 ts1) d2 m2
        id2 ts2).full_text = d2 ∧
    eKeywordSearch (eIndexDocument chunker
        (eIndexDocument chunker st d1 m1 id1 ts1) d2 m2 id2 ts2) q f =
      [] := by
  have hft : (eIndexDocument chunker (eIndexDocument chunker st d1 m1 id1 ts1)
      d2 m2 id2 ts2).full_text = d2 := rfl
  refine ⟨hft, ?_⟩
  rw [eKeywordSearch, hft]
  by_cases hd : d2 = ""
  · rw [if_pos hd]
  · rw [if_neg hd]
    refine List.filterMap_eq_nil_iff.mpr ?_
    intro t ht
    rw [hq t ht]

/-- C10 witness: after ingesting "alpha alpha" and then "beta beta", the
stored full text is "beta beta" and the fallback search for "alpha"
returns nothing. -/
theorem eIndexDocument_overwrites_full_text_witness :
    (∀ t ∈ splitWs (pyLower "alpha"),
      strFind ((pyLower "beta beta").toList) t.toList = none) ∧
    ((eIndexDocument (fun _ => []) (eIndexDocument (fun _ => [])
        (eInit "s1") "alpha alpha" [] "d1" "t1") "beta beta" [] "d2"
        "t2").full_text = "beta beta" ∧
      eKeywordSearch (eIndexDocument (fun _ => []) (eIndexDocument
        (fun _ => []) (eInit "s1") "alpha alpha" [] "d1" "t1") "beta beta"
        [] "d2" "t2") "alpha" [] = []) :=
  ⟨by decide,
   eIndexDocument_overwrites_full_text (fun _ => []) (eInit "s1")
     "alpha alpha" "beta beta" [] [] "d1" "t1" "d2" "t2" "alpha" []
     (by decide)⟩

/-- The deduplication loop never emits a result whose key was already
seen. -/
theorem dedupAux_key_not_seen (seen : List String)
    (l : List (SearchResult ℚ)) :
    ∀ r ∈ dedupAux seen l, dedupKey r ∉ seen := by
  induction l generalizing seen with
  | nil => intro r hr; cases hr
  | cons x xs ih =>
    intro r hr
    rw [dedupAux] at hr
    by_cases hx : dedupKey x ∈ seen
    · rw [if_pos hx] at hr
      exact ih seen r hr
    · rw [if_neg hx] at hr
      rcases List.mem_cons.mp hr with rfl | hr
      · exact hx
      · have := ih (dedupKey x :: seen) r hr
        exact fun hs => this (List.mem_cons_of_mem _ hs)

/-- The deduplication loop emits a sublist of its input. -/
theorem dedupAux_sublist (seen : List String) (l : List (SearchResult ℚ)) :
    (dedupAux seen l).Sublist l := by
  induction l generalizing seen with
  | nil => exact List.Sublist.refl _
  | cons x xs ih =>
    rw [dedupAux]
    by_cases hx : dedupKey x ∈ seen
    · rw [if_pos hx]
      exact (ih seen).trans (List.sublist_cons_self x xs)
    · rw [if_neg hx]
      exact (ih (dedupKey x :: seen)).cons₂ x

/-- The deduplication loop emits pairwise-distinct keys. -/
theorem dedupAux_keys_nodup (seen : List String)
    (l : List (SearchResult ℚ)) :
    ((dedupAux seen l).map dedupKey).Nodup := by
  induction l generalizing seen with
  | nil => exact List.nodup_nil
  | cons x xs ih =>
    rw [dedupAux]
    by_cases hx : dedupKey x ∈ seen
    · rw [if_pos hx]
      exact ih seen
    · rw [if_neg hx]
      refine List.nodup_cons.mpr ⟨?_, ih (dedupKey x :: seen)⟩
      intro hmem
      rcases List.mem_map.mp hmem with ⟨r, hr, hkey⟩
      exact dedupAux_key_not_seen _ _ r hr (hkey ▸ List.mem_cons_self _ _)

/-- Every survivor of the deduplication loop is the first-encountered
input element carrying its key. -/
theorem dedupAux_first_seen (seen : List String)
    (l : List (SearchResult ℚ)) (r : SearchResult ℚ)
    (hr : r ∈ dedupAux seen l) :
    dedupKey r ∉ seen ∧
      l.find? (fun x => dedupKey x == dedupKey r) = some r := by
  induction l generalizing seen with
  | nil => cases hr
  | cons x xs ih =>
    rw [dedupAux] at hr
    by_cases hx : dedupKey x ∈ seen
    · rw [if_pos hx] at hr
      obtain ⟨hnot, hfind⟩ := ih seen hr
      refine ⟨hnot, ?_⟩
      rw [List.find?_cons_of_neg, hfind]
      simp only [beq_iff_eq]
      intro heq
      exact hnot (heq ▸ hx)
    · rw [if_neg hx] at hr
      rcases List.mem_cons.mp hr with rfl | hr
      · exact ⟨hx, by rw [List.find?_cons_of_pos _ (by simp)]⟩
      · obtain ⟨hnot, hfind⟩ := ih (dedupKey x :: seen) hr
        have hne : dedupKey x ≠ dedupKey r := fun heq =>
          hnot (heq ▸ List.mem_cons_self _ _)
        refine ⟨fun hs => hnot (List.mem_cons_of_mem _ hs), ?_⟩
        rw [List.find?_cons_of_neg, hfind]
        simp only [beq_iff_eq]
        exact hne

/-- C8: in the enhanced indexer's fusion, two candidates whose first 100
characters of content are byte-identical share the deduplication key;
deduplication keeps a sublist of the merge-ordered candidates with
pairwise-distinct keys in which every survivor is the first-encountered
candidate with its key (so the later of any key-equal pair is dropped);
and `search` applies deduplication before the final descending-score
sort and `topK` truncation. -/
theorem eSearch_dedup_first_seen (o : SimOracle) (st : EState)
    (q : String) (k : Nat) (f : Meta) (l : List (SearchResult ℚ))
    (r a b : SearchResult ℚ)
    (hab : a.content.toList.take 100 = b.content.toList.take 100)
    (hr : r ∈ dedupResults l) :
    dedupKey a = dedupKey b ∧
    (dedupResults l).Sublist l ∧
    ((dedupResults l).map dedupKey).Nodup ∧
    l.find? (fun x => dedupKey x == dedupKey r) = some r ∧
    eSearch o st q k f =
      (sortResultsDesc (dedupResults (eAllCandidates o st q k f))).take k := by
  refine ⟨?_, dedupAux_sublist [] l, dedupAux_keys_nodup [] l,
    (dedupAux_first_seen [] l r hr).2, rfl⟩
  rw [dedupKey, dedupKey, hab]

/-- C8 witness: two concrete results with identical 100-character
prefixes; the first survives deduplication and is found as the first
occurrence of its key. -/
theorem eSearch_dedup_first_seen_witness :
    (⟨"dup text", 2, [], "d1", 0⟩ : SearchResult ℚ).content.toList.take 100 =
        (⟨"dup text", 1, [], "d2", 1⟩ : SearchResult ℚ).content.toList.take
          100 ∧
    (⟨"dup text", 2, [], "d1", 0⟩ : SearchResult ℚ) ∈
      dedupResults [⟨"dup text", 2, [], "d1", 0⟩,
        ⟨"dup text", 1, [], "d2", 1⟩] ∧
    [(⟨"dup text", 2, [], "d1", 0⟩ : SearchResult ℚ),
        ⟨"dup text", 1, [], "d2", 1⟩].find?
        (fun x => dedupKey x == dedupKey ⟨"dup text", 2, [], "d1", 0⟩) =
      some ⟨"dup text", 2, [], "d1", 0⟩ := by
  refine ⟨by decide, by decide, ?_⟩
  exact (eSearch_dedup_first_seen listOracle (eInit "s") "" 0 []
    [⟨"dup text", 2, [], "d1", 0⟩, ⟨"dup text", 1, [], "d2", 1⟩]
    ⟨"dup text", 2, [], "d1", 0⟩ ⟨"dup text", 2, [], "d1", 0⟩
    ⟨"dup text", 1, [], "d2", 1⟩ (by decide) (by decide)).2.2.2.1

/-- The concrete list-scan oracle satisfies the adapter contract. -/
theorem listOracle_conforms : oracleConforms listOracle := by
  intro q k f s
  constructor
  · rw [listOracle, List.length_map, List.length_take]
    exact min_le_left _ _
  · intro r hr
    rcases List.mem_map.mp hr with ⟨e, he, rfl⟩
    have he' := List.mem_of_mem_take he
    exact ⟨(List.mem_filter.mp he').1, (List.mem_filter.mp he').2⟩

/-- C1 (failing-input evaluation): on the semantic indexer,
`delete_session_data` returns `true` and clears the internal document
list, yet a subsequent search against a conforming adapter still
returns the previously indexed chunk, because the vector-store
collection is never purged. -/
theorem sDeleteSessionData_leaves_store_searchable :
    oracleConforms listOracle ∧
    (sDeleteSessionData (sIndexDocument (fun d => [d]) (sInit "s1")
        "hello world" [] "doc1" "t0")).1 = true ∧
    (sDeleteSessionData (sIndexDocument (fun d => [d]) (sInit "s1")
        "hello world" [] "doc1" "t0")).2.documents = [] ∧
    (sDeleteSessionData (sIndexDocument (fun d => [d]) (sInit "s1")
        "hello world" [] "doc1" "t0")).2.index_stats =
      initStats "SemanticIndexer" ∧
    (sSearch listOracle (sDeleteSessionData (sIndexDocument (fun d => [d])
        (sInit "s1") "hello world" [] "doc1" "t0")).2 "hello" 1 []).map
        (fun r => r.content) =
      ["hello world"] :=
  ⟨listOracle_conforms, by decide, by decide, by decide, by decide⟩

/-- C2 counterexample: a caller-supplied filter carrying a forged
`session_id` key overrides the engine's own constraint
(`search_filter.update(filters)` replaces the value), so the filter
handed to the adapter does not contain the indexer's session id, and a
conforming adapter returns to the caller a result whose originating
chunk's session id ("evil", forged at ingestion through the same
metadata-override mechanism) differs from the indexer's session "s1". -/
theorem sSearch_filter_override_counterexample :
    metaGet (sSearchFilter "s1" [("session_id", "evil")]) "session_id" =
        some "evil" ∧
    oracleConforms listOracle ∧
    (sSearch listOracle (sIndexDocument (fun d => [d]) (sInit "s1")
        "secret" [("session_id", "evil")] "d9" "t0") "q" 5
        [("session_id", "evil")]).map
        (fun r => metaGet r.metadata "session_id") =
      [some "evil"] :=
  ⟨by decide, listOracle_conforms, by decide⟩

/-- Looking up `session_id` in the constructed search filter falls
through to the engine's own entry when the caller filters lack that
key. -/
theorem sSearchFilter_session_lookup (sessionId : String) (f : Meta)
    (hf : metaGet f "session_id" = none) :
    metaGet (sSearchFilter sessionId f) "session_id" = some sessionId := by
  rw [sSearchFilter, dictUpdate, metaGet, List.find?_append]
  rw [metaGet, Option.map_eq_none'] at hf
  rw [hf]
  rfl

/-- A metadata map matching a filter agrees with the filter's value at
every key the filter contains. -/
theorem matchesFilter_metaGet {md f : Meta} (h : matchesFilter md f = true)
    {p : String × String} (hp : p ∈ f) :
    metaGet md p.1 = metaGet f p.1 := by
  rw [matchesFilter, List.all_eq_true] at h
  exact beq_iff_eq.mp (h p hp)

/-- C2 amended: provided the caller-supplied filters do not themselves
contain a `session_id` key, the filter handed to the adapter by
`SemanticIndexer.search` and by `EnhancedSemanticIndexer._vector_search`
carries the exact-match constraint on the indexer's own session id, and
for any adapter satisfying the filter contract, every returned result
originates from a chunk whose session id equals the indexer's own. -/
theorem search_session_isolation (o : SimOracle) (sst : SState)
    (est : EState) (q : String) (k : Nat) (f : Meta)
    (ho : oracleConforms o) (hf : metaGet f "session_id" = none) :
    metaGet (sSearchFilter sst.session_id f) "session_id" =
        some sst.session_id ∧
    (∀ r ∈ sSearch o sst q k f,
      metaGet r.metadata "session_id" = some sst.session_id) ∧
    metaGet (sSearchFilter est.session_id f) "session_id" =
        some est.session_id ∧
    (∀ r ∈ eVectorSearch o est q k f,
      metaGet r.metadata "session_id" = some est.session_id) := by
  refine ⟨sSearchFilter_session_lookup _ f hf, ?_,
    sSearchFilter_session_lookup _ f hf, ?_⟩
  · intro r hr
    rcases List.mem_map.mp hr with ⟨p, hp, rfl⟩
    have hm := ((ho q k (sSearchFilter sst.session_id f) sst.store).2 p hp).2
    have := matchesFilter_metaGet hm
      (p := ("session_id", sst.session_id))
      (by rw [sSearchFilter, dictUpdate]
          exact List.mem_append_right f (List.mem_singleton.mpr rfl))
    rw [adapterToResult]
    rw [this, sSearchFilter_session_lookup _ f hf]
  · intro r hr
    rcases List.mem_map.mp hr with ⟨p, hp, rfl⟩
    have hm := ((ho q k (sSearchFilter est.session_id f) est.store).2 p hp).2
    have := matchesFilter_metaGet hm
      (p := ("session_id", est.session_id))
      (by rw [sSearchFilter, dictUpdate]
          exact List.mem_append_right f (List.mem_singleton.mpr rfl))
    rw [adapterToResult]
    rw [this, sSearchFilter_session_lookup _ f hf]

/-- C2 amended witness: with no forged key in the caller filters, the
constructed filter constrains to session "s1" and every result of a
concrete search stays in session "s1". -/
theorem search_session_isolation_witness :
    oracleConforms listOracle ∧
    metaGet ([] : Meta) "session_id" = none ∧
    (metaGet (sSearchFilter (sInit "s1").session_id []) "session_id" =
        some (sInit "s1").session_id ∧
      (∀ r ∈ sSearch listOracle (sInit "s1") "q" 3 [],
        metaGet r.metadata "session_id" = some (sInit "s1").session_id) ∧
      metaGet (sSearchFilter (eInit "s1").session_id []) "session_id" =
        some (eInit "s1").session_id ∧
      (∀ r ∈ eVectorSearch listOracle (eInit "s1") "q" 3 [],
        metaGet r.metadata "session_id" = some (eInit "s1").session_id)) :=
  ⟨listOracle_conforms, rfl,
   search_session_isolation listOracle (sInit "s1") (eInit "s1") "q" 3 []
     listOracle_conforms rfl⟩

/-- C3 counterexample: in the reachable single-chunk state obtained by
indexing "a a b", the term "a" has df = 1, N = 1, token length 3 and
average length 3, and its BM25 contribution at frequency 2 is strictly
below the contribution the same parameters would give at frequency 1:
the idf factor ln((1-1+0.5)/(1+0.5)) = ln(1/3) is negative, so the
contribution strictly decreases as the term frequency grows. -/
theorem bm25_monotonicity_counterexample :
    bm25TermContribution 2 1 1 3 3 < bm25TermContribution 1 1 1 3 3 ∧
    (kIndexDocument 100 (kInit "s") "a a b" [] "d0" "t0").term_frequencies =
      [("d0_0", [("a", 2), ("b", 1)])] ∧
    (kIndexDocument 100 (kInit "s") "a a b" [] "d0"
        "t0").document_frequencies "a" = 1 ∧
    (kIndexDocument 100 (kInit "s") "a a b" [] "d0" "t0").total_documents =
      1 ∧
    (kIndexDocument 100 (kInit "s") "a a b" [] "d0" "t0").avg_doc_length =
      3 ∧
    countOf (kIndexDocument 100 (kInit "s") "a a b" [] "d0" "t0").doc_lengths
      "d0_0" = 3 ∧
    calcBM25 (kIndexDocument 100 (kInit "s") "a a b" [] "d0" "t0") ["a"]
      "d0_0" = bm25TermContribution 2 1 1 3 3 := by
  have h6 : (kIndexDocument 100 (kInit "s") "a a b" [] "d0"
      "t0").avg_doc_length = 3 := by
    have hdl : (List.foldl (kIndexChunk (kInit "s").session_id "d0" "t0"
        []) (kInit "s") (chunkText 100 "a a b").enum).doc_lengths =
        [("d0_0", 3)] := by
      decide
    simp only [kIndexDocument]
    rw [hdl, recomputeAvg]
    norm_num
  refine ⟨?_, by decide, by decide, by decide, h6, by decide, ?_⟩
  · have hL : Real.log ((1 : ℝ) / 3) < 0 :=
      Real.log_neg (by norm_num) (by norm_num)
    rw [bm25TermContribution, bm25TermContribution, bm25k1, bm25b]
    push_cast
    norm_num
    nlinarith [hL]
  · have h1 : (kIndexDocument 100 (kInit "s") "a a b" [] "d0"
        "t0").term_frequencies.find? (fun e => e.1 = "d0_0") =
        some ("d0_0", [("a", 2), ("b", 1)]) := by decide
    have h2 : ([("a", 2), ("b", 1)] : List (String × Nat)).find?
        (fun p => p.1 = "a") = some ("a", 2) := by decide
    have h3 : (kIndexDocument 100 (kInit "s") "a a b" [] "d0"
        "t0").document_frequencies "a" = 1 := by decide
    have h4 : countOf (kIndexDocument 100 (kInit "s") "a a b" [] "d0"
        "t0").doc_lengths "d0_0" = 3 := by decide
    have h5 : (kIndexDocument 100 (kInit "s") "a a b" [] "d0"
        "t0").total_documents = 1 := by decide
    rw [calcBM25, h1]
    simp only [List.foldl_cons, List.foldl_nil, h2, h3, h4, h5, h6]
    norm_num

/-- C3 amended: holding document frequency, total chunk count, token
length and average length fixed, the BM25 per-term contribution is
non-decreasing in the term frequency provided the term occurs in at
most half of the chunks (2·df ≤ N, making the idf factor non-negative);
with 2·df > N the idf factor is negative and the contribution decreases
in the term frequency, as the counterexample shows. -/
theorem bm25TermContribution_monotone (tf1 tf2 df N docLen avgLen : ℚ)
    (htf1 : 0 < tf1) (h12 : tf1 ≤ tf2) (hdf : 0 ≤ df) (hN : 2 * df ≤ N)
    (hdoc : 0 ≤ docLen) (havg : 0 < avgLen) :
    bm25TermContribution tf1 df N docLen avgLen ≤
      bm25TermContribution tf2 df N docLen avgLen := by
  rw [bm25TermContribution, bm25TermContribution, bm25k1, bm25b]
  push_cast
  have hdf' : (0 : ℝ) ≤ (df : ℝ) := by exact_mod_cast hdf
  have hN' : 2 * (df : ℝ) ≤ (N : ℝ) := by exact_mod_cast hN
  have htf1' : (0 : ℝ) < (tf1 : ℝ) := by exact_mod_cast htf1
  have h12' : (tf1 : ℝ) ≤ (tf2 : ℝ) := by exact_mod_cast h12
  have hdoc' : (0 : ℝ) ≤ (docLen : ℝ) := by exact_mod_cast hdoc
  have havg' : (0 : ℝ) < (avgLen : ℝ) := by exact_mod_cast havg
  have hidf : 0 ≤ Real.log (((N : ℝ) - (df : ℝ) + 1 / 2) / ((df : ℝ) + 1 / 2)) := by
    refine Real.log_nonneg ?_
    rw [le_div_iff₀ (by linarith)]
    linarith
  have hK : 0 ≤ (3 / 2 : ℝ) * (1 - 3 / 4 + 3 / 4 * ((docLen : ℝ) / (avgLen : ℝ))) := by
    have : 0 ≤ (docLen : ℝ) / (avgLen : ℝ) := div_nonneg hdoc' havg'.le
    nlinarith
  refine mul_le_mul_of_nonneg_left ?_ hidf
  rw [div_le_div_iff₀ (by nlinarith) (by nlinarith)]
  nlinarith

/-- C3 amended witness: a concrete instance with 2·df ≤ N. -/
theorem bm25TermContribution_monotone_witness :
    (0 : ℚ) < 1 ∧ (1 : ℚ) ≤ 2 ∧ (0 : ℚ) ≤ 1 ∧ (2 : ℚ) * 1 ≤ 2 ∧
      (0 : ℚ) ≤ 3 ∧ (0 : ℚ) < 3 ∧
    bm25TermContribution 1 1 2 3 3 ≤ bm25TermContribution 2 1 2 3 3 :=
  ⟨by norm_num, by norm_num, by norm_num, by norm_num, by norm_num,
   by norm_num,
   bm25TermContribution_monotone 1 2 1 2 3 3 (by norm_num) (by norm_num)
     (by norm_num) (by norm_num) (by norm_num) (by norm_num)⟩

/-- A left fold that only ever adds `g t` to its accumulator computes
the sum of `g` over the list. -/
theorem foldl_add_eq_sum {α : Type} (g : α → ℝ) (f : ℝ → α → ℝ)
    (hf : ∀ s t, f s t = s + g t) (l : List α) (a : ℝ) :
    l.foldl f a = a + (l.map g).sum := by
  induction l generalizing a with
  | nil => simp
  | cons t ts ih =>
    rw [List.foldl_cons, ih, hf, List.map_cons, List.sum_cons]
    ring

/-- C4: for every chunk held by the keyword indexer (in a state whose
`total_documents` equals the number of held chunks, as every operation
maintains), the cumulative BM25 score equals the sum over the query
terms of `ln((N-df+0.5)/(df+0.5)) * tf*(k1+1)/(tf + k1*(1-b+b*(len/avg)))`
with `k1 = 3/2`, `b = 3/4` and `N` the chunk count, where query terms
absent from the chunk or with zero document frequency contribute
exactly zero. -/
theorem calcBM25_eq_sum (st : KState) (queryTerms : List String)
    (docId : String) (e : String × List (String × Nat))
    (he : st.term_frequencies.find? (fun x => x.1 = docId) = some e)
    (hN : st.total_documents = st.documents.length) :
    calcBM25 st queryTerms docId =
      (queryTerms.map (fun t =>
        if (e.2.find? (fun p => p.1 = t)).isSome ∧
            st.document_frequencies t ≠ 0 then
          bm25TermContribution (countOf e.2 t : ℚ)
            (st.document_frequencies t : ℚ) (st.documents.length : ℚ)
            (countOf st.doc_lengths docId : ℚ) st.avg_doc_length
        else 0)).sum := by
  rw [← hN]
  simp only [calcBM25, he]
  refine (foldl_add_eq_sum (fun t =>
      if (e.2.find? (fun p => p.1 = t)).isSome ∧
          st.document_frequencies t ≠ 0 then
        bm25TermContribution (countOf e.2 t : ℚ)
          (st.document_frequencies t : ℚ) (st.total_documents : ℚ)
          (countOf st.doc_lengths docId : ℚ) st.avg_doc_length
      else 0) _ ?_ queryTerms 0).trans (zero_add _)
  · intro s t
    cases hfind : e.2.find? (fun p => p.1 = t) with
    | none =>
      simp only [hfind, Option.isSome_none, Bool.false_eq_true, false_and,
        if_false]
      ring
    | some p =>
      by_cases hdf : st.document_frequencies t = 0
      · simp only [hfind, hdf, ne_eq, not_true_eq_false, and_false]
        simp
      · have hcount : countOf e.2 t = p.2 := by
          rw [countOf, hfind]
          rfl
        simp only [hfind, hdf, Option.isSome_some, ne_eq,
          not_false_eq_true, and_true, if_neg hdf, hcount]
        simp

/-- C4 witness: the single-chunk state obtained by indexing "a a b",
queried with one present and one absent term. -/
theorem calcBM25_eq_sum_witness :
    (kIndexDocument 100 (kInit "s") "a a b" [] "d0"
        "t0").term_frequencies.find? (fun x => x.1 = "d0_0") =
      some ("d0_0", [("a", 2), ("b", 1)]) ∧
    (kIndexDocument 100 (kInit "s") "a a b" [] "d0" "t0").total_documents =
      (kIndexDocument 100 (kInit "s") "a a b" [] "d0"
        "t0").documents.length ∧
    calcBM25 (kIndexDocument 100 (kInit "s") "a a b" [] "d0" "t0")
        ["a", "c"] "d0_0" =
      ((["a", "c"] : List String).map (fun t =>
        if ((("d0_0", [("a", 2), ("b", 1)]) :
              String × List (String × Nat)).2.find?
              (fun p => p.1 = t)).isSome ∧
            (kIndexDocument 100 (kInit "s") "a a b" [] "d0"
              "t0").document_frequencies t ≠ 0 then
          bm25TermContribution
            (countOf (("d0_0", [("a", 2), ("b", 1)]) :
              String × List (String × Nat)).2 t : ℚ)
            ((kIndexDocument 100 (kInit "s") "a a b" [] "d0"
              "t0").document_frequencies t : ℚ)
            ((kIndexDocument 100 (kInit "s") "a a b" [] "d0"
              "t0").documents.length : ℚ)
            (countOf (kIndexDocument 100 (kInit "s") "a a b" [] "d0"
              "t0").doc_lengths "d0_0" : ℚ)
            (kIndexDocument 100 (kInit "s") "a a b" [] "d0"
              "t0").avg_doc_length
        else 0)).sum :=
  ⟨by decide, by decide,
   calcBM25_eq_sum (kIndexDocument 100 (kInit "s") "a a b" [] "d0" "t0")
     ["a", "c"] "d0_0" ("d0_0", [("a", 2), ("b", 1)]) (by decide)
     (by decide)⟩

/-- A two-element sublist of `P ++ a :: Q` either avoids `a`, or starts
at `a` with the second element in `Q`, or ends at `a` with the first
element in `P`. -/
theorem pair_sublist_append_cons {α : Type} {P Q : List α} {a x y : α}
    (h : [x, y].Sublist (P ++ a :: Q)) :
    [x, y].Sublist (P ++ Q) ∨ (x = a ∧ y ∈ Q) ∨ (y = a ∧ x ∈ P) := by
  induction P with
  | nil =>
    simp only [List.nil_append] at h ⊢
    cases h with
    | cons _ h' => exact Or.inl h'
    | cons₂ _ h' => exact Or.inr (Or.inl ⟨rfl, List.singleton_sublist.mp h'⟩)
  | cons p P' ih =>
    rw [List.cons_append] at h
    cases h with
    | cons _ h' =>
      rcases ih h' with h'' | ⟨hx, hy⟩ | ⟨hy, hx⟩
      · exact Or.inl (by rw [List.cons_append]; exact h''.cons p)
      · exact Or.inr (Or.inl ⟨hx, hy⟩)
      · exact Or.inr (Or.inr ⟨hy, List.mem_cons_of_mem p hx⟩)
    | cons₂ _ h' =>
      rcases List.mem_append.mp (List.singleton_sublist.mp h') with hy | hy
      · rw [List.cons_append]
        exact Or.inl ((List.singleton_sublist.mpr
          (List.mem_append_left Q hy)).cons₂ x)
      · rcases List.mem_cons.mp hy with rfl | hy'
        · exact Or.inr (Or.inr ⟨rfl, List.mem_cons_self x P'⟩)
        · rw [List.cons_append]
          exact Or.inl ((List.singleton_sublist.mpr
            (List.mem_append_right P' hy')).cons₂ x)

/-- A two-element sublist of an ordered insertion either already sat in
the list, or involves the inserted element in a constrained way. -/
theorem pair_sublist_orderedInsert {α : Type} (r : α → α → Prop)
    [DecidableRel r] (a x y : α) (M : List α)
    (h : [x, y].Sublist (M.orderedInsert r a)) :
    [x, y].Sublist M ∨ (x = a ∧ y ∈ M) ∨ (y = a ∧ x ∈ M ∧ ¬r a x) := by
  rw [List.orderedInsert_eq_take_drop] at h
  rcases pair_sublist_append_cons h with h' | ⟨hx, hy⟩ | ⟨hy, hx⟩
  · rw [List.takeWhile_append_dropWhile] at h'
    exact Or.inl h'
  · exact Or.inr (Or.inl ⟨hx, (List.dropWhile_sublist _).subset hy⟩)
  · refine Or.inr (Or.inr ⟨hy, (List.takeWhile_sublist _).subset hx, ?_⟩)
    have := List.mem_takeWhile_imp hx
    simpa using this

/-- Stability of the descending insertion sort: a key-tied pair keeps
its input order, so ties are broken by the original list order. -/
theorem sortDesc_pair_stable {α : Type} (key : α → ℝ)
    (l : List α) (x y : α) (hxy : key x = key y)
    (h : [x, y].Sublist (@List.insertionSort _
      (fun a b => key b ≤ key a)
      (fun _ _ => Classical.propDecidable _) l)) :
    [x, y].Sublist l := by
  induction l with
  | nil => simp at h
  | cons a t ih =>
    rw [List.insertionSort] at h
    rcases pair_sublist_orderedInsert _ a x y _ h with
      h' | ⟨hx, hy⟩ | ⟨hy, hx, hr⟩
    · exact (ih h').cons a
    · subst hx
      have : y ∈ t := (List.mem_insertionSort _).mp hy
      exact (List.singleton_sublist.mpr this).cons₂ x
    · subst hy
      exact absurd (le_of_eq hxy) hr

/-- An empty term list scores zero. -/
theorem calcBM25_nil (st : KState) (docId : String) :
    calcBM25 st [] docId = 0 := by
  rw [calcBM25]
  cases st.term_frequencies.find? (fun e => e.1 = docId) <;> rfl

/-- With no query terms every chunk scores zero and is filtered out. -/
theorem scoredCandidates_nil_query (st : KState) (filters : Meta) :
    scoredCandidates st [] filters = [] := by
  refine List.filterMap_eq_nil_iff.mpr ?_
  intro d _
  by_cases hp : kPassesFilters st d.metadata filters
  · simp only [scoredCandidates, hp, if_true]
    rw [if_neg]
    rw [calcBM25_nil]
    exact lt_irrefl 0
  · simp only [scoredCandidates, hp]
    rfl

/-- C5: the keyword search returns exactly the stable descending sort of
the positively-scored, filter-passing chunks (in ingestion order),
truncated to `topK`: at most `topK` results, sorted by non-increasing
score, a permutation of the candidate list, ties kept in ingestion
order, and every candidate passes the session and metadata-equality
pre-filters with a strictly positive BM25 score. -/
theorem kSearch_spec (st : KState) (query : String) (topK : Nat)
    (filters : Meta) (_hk : 0 < topK) :
    kSearch st query topK filters =
      ((sortByScoreDesc (scoredCandidates st (preprocessText query)
        filters)).take topK).map kToResult ∧
    (kSearch st query topK filters).length ≤ topK ∧
    (sortByScoreDesc (scoredCandidates st (preprocessText query)
      filters)).Pairwise (fun a b => b.2 ≤ a.2) ∧
    (sortByScoreDesc (scoredCandidates st (preprocessText query)
      filters)).Perm (scoredCandidates st (preprocessText query) filters) ∧
    (∀ x y : IndexedDoc × ℝ, x.2 = y.2 →
      [x, y].Sublist (sortByScoreDesc (scoredCandidates st
        (preprocessText query) filters)) →
      [x, y].Sublist (scoredCandidates st (preprocessText query) filters)) ∧
    (∀ c ∈ scoredCandidates st (preprocessText query) filters,
      c.1 ∈ st.documents ∧
      metaGet c.1.metadata "session_id" = some st.session_id ∧
      (∀ p ∈ filters, metaGet c.1.metadata p.1 = some p.2) ∧
      0 < c.2 ∧ c.2 = calcBM25 st (preprocessText query) c.1.doc_id) := by
  have hEq : kSearch st query topK filters =
      ((sortByScoreDesc (scoredCandidates st (preprocessText query)
        filters)).take topK).map kToResult := by
    rw [kSearch]
    by_cases hd : st.documents = []
    · rw [if_pos hd]
      have hcs : scoredCandidates st (preprocessText query) filters = [] := by
        simp only [scoredCandidates, hd, List.filterMap_nil]
      rw [hcs]
      simp [sortByScoreDesc]
    · rw [if_neg hd]
      by_cases hq : preprocessText query = []
      · rw [if_pos hq, hq, scoredCandidates_nil_query]
        simp [sortByScoreDesc]
      · rw [if_neg hq]
  haveI : IsTotal (IndexedDoc × ℝ) (fun a b => b.2 ≤ a.2) :=
    ⟨fun a b => le_total b.2 a.2⟩
  haveI : IsTrans (IndexedDoc × ℝ) (fun a b => b.2 ≤ a.2) :=
    ⟨fun _ _ _ hab hbc => le_trans hbc hab⟩
  refine ⟨hEq, ?_, List.sorted_insertionSort _ _, List.perm_insertionSort _ _,
    fun x y hxy h =>
      sortDesc_pair_stable (fun p : IndexedDoc × ℝ => p.2) _ x y hxy h, ?_⟩
  · rw [hEq, List.length_map]
    exact le_trans (List.length_take_le _ _) (le_refl _)
  · intro c hc
    rcases List.mem_filterMap.mp hc with ⟨d, hd, hmap⟩
    by_cases hp : kPassesFilters st d.metadata filters
    · simp only [scoredCandidates, hp, if_true] at hmap
      by_cases hs : 0 < calcBM25 st (preprocessText query) d.doc_id
      · rw [if_pos hs] at hmap
        obtain rfl : (d, calcBM25 st (preprocessText query) d.doc_id) = c :=
          Option.some_injective _ hmap
        have hp' := hp
        rw [kPassesFilters, Bool.and_eq_true] at hp'
        refine ⟨hd, beq_iff_eq.mp hp'.1, ?_, hs, rfl⟩
        intro p hp2
        have := List.all_eq_true.mp hp'.2 p hp2
        exact beq_iff_eq.mp this
      · rw [if_neg hs] at hmap
        cases hmap
    · simp only [scoredCandidates, hp] at hmap
      cases hmap

/-- C5 witness: a concrete two-chunk state searched with `topK = 1`. -/
theorem kSearch_spec_witness :
    0 < 1 ∧
    kSearch (kIndexDocument 20 (kInit "s") "Python wins. Python is neat."
        [] "d0" "t0") "Python" 1 [] =
      ((sortByScoreDesc (scoredCandidates
        (kIndexDocument 20 (kInit "s") "Python wins. Python is neat." []
          "d0" "t0") (preprocessText "Python") [])).take 1).map kToResult :=
  ⟨Nat.one_pos,
   (kSearch_spec (kIndexDocument 20 (kInit "s")
     "Python wins. Python is neat." [] "d0" "t0") "Python" 1 []
     Nat.one_pos).1⟩

/-- Lookup in a counter map skips a head with a different key. -/
theorem countOf_cons_ne {p : String × Nat} {m : List (String × Nat)}
    {t : String} (h : ¬p.1 = t) : countOf (p :: m) t = countOf m t := by
  rw [countOf, countOf, List.find?_cons_of_neg _ (by simp [h])]

/-- Lookup in a counter map reads a head with a matching key. -/
theorem countOf_cons_eq {p : String × Nat} {m : List (String × Nat)}
    {t : String} (h : p.1 = t) : countOf (p :: m) t = p.2 := by
  rw [countOf, List.find?_cons_of_pos _ (by simp [h])]
  rfl

/-- Incrementing a counter map bumps exactly the given key. -/
theorem countOf_incrCount (m : List (String × Nat)) (w t : String) :
    countOf (incrCount m w) t = countOf m t + (if t = w then 1 else 0) := by
  induction m with
  | nil =>
    by_cases h : t = w
    · subst h
      rw [incrCount, countOf_cons_eq rfl]
      simp [countOf]
    · rw [incrCount, countOf_cons_ne (Ne.symm h), if_neg h]
      simp [countOf]
  | cons p m' ih =>
    rw [incrCount]
    by_cases hp : p.1 = w
    · rw [if_pos hp]
      by_cases ht : t = w
      · subst ht
        rw [countOf_cons_eq hp, countOf_cons_eq (p := (p.1, p.2 + 1)) hp,
          if_pos rfl]
      · have hpt : ¬p.1 = t := fun h => ht (h ▸ hp)
        rw [countOf_cons_ne hpt, countOf_cons_ne (p := (p.1, p.2 + 1)) hpt,
          if_neg ht]
        omega
    · rw [if_neg hp]
      by_cases hpt : p.1 = t
      · have hnt : ¬t = w := fun h => hp (hpt.symm ▸ h ▸ rfl)
        rw [countOf_cons_eq hpt, countOf_cons_eq hpt, if_neg hnt]
        omega
      · rw [countOf_cons_ne hpt, countOf_cons_ne hpt, ih]

/-- Incrementing a counter map keeps its key list, or appends the new
key when absent. -/
theorem keys_incrCount (m : List (String × Nat)) (w : String) :
    (incrCount m w).map Prod.fst =
      if w ∈ m.map Prod.fst then m.map Prod.fst
      else m.map Prod.fst ++ [w] := by
  induction m with
  | nil => simp [incrCount]
  | cons p m' ih =>
    rw [incrCount]
    by_cases hp : p.1 = w
    · subst hp
      simp
    · rw [if_neg hp]
      by_cases hw : w ∈ m'.map Prod.fst
      · simp only [List.map_cons, ih, hw, if_true]
        rw [if_pos (List.mem_cons_of_mem _ hw)]
      · have : ¬w ∈ (p.1 :: m'.map Prod.fst) := by
          intro h
          rcases List.mem_cons.mp h with h' | h'
          · exact hp h'.symm
          · exact hw h'
        simp only [List.map_cons, ih, hw, if_false]
        rw [if_neg (by simpa using this), List.cons_append]

/-- Incrementing a counter map keeps all counts positive. -/
theorem incrCount_pos (m : List (String × Nat)) (w : String)
    (h : ∀ p ∈ m, 0 < p.2) : ∀ p ∈ incrCount m w, 0 < p.2 := by
  induction m with
  | nil =>
    intro p hp
    rcases List.mem_singleton.mp hp with rfl
    exact Nat.one_pos
  | cons q m' ih =>
    intro p hp
    rw [incrCount] at hp
    by_cases hq : q.1 = w
    · rw [if_pos hq] at hp
      rcases List.mem_cons.mp hp with rfl | hp'
      · exact Nat.succ_pos _
      · exact h p (List.mem_cons_of_mem _ hp')
    · rw [if_neg hq] at hp
      rcases List.mem_cons.mp hp with rfl | hp'
      · exact h p (List.mem_cons_self _ _)
      · exact ih (fun r hr => h r (List.mem_cons_of_mem _ hr)) p hp'

/-- Folding `Counter`-increments counts occurrences. -/
theorem countOf_foldl_incrCount (ws : List String)
    (acc : List (String × Nat)) (t : String) :
    countOf (ws.foldl incrCount acc) t = countOf acc t + ws.count t := by
  induction ws generalizing acc with
  | nil => simp
  | cons w ws' ih =>
    rw [List.foldl_cons, ih, countOf_incrCount, List.count_cons]
    by_cases h : t = w
    · subst h
      simp
      omega
    · simp [h, Ne.symm h]

/-- The count recorded by `Counter(words)` for `t` is the number of
occurrences of `t` in `words`. -/
theorem countOf_countWords (ws : List String) (t : String) :
    countOf (countWords ws) t = ws.count t := by
  rw [countWords, countOf_foldl_incrCount]
  simp [countOf]

/-- `Counter(words)` records a positive count exactly for the words
present. -/
theorem countOf_countWords_pos (ws : List String) (t : String) :
    0 < countOf (countWords ws) t ↔ t ∈ ws := by
  rw [countOf_countWords]
  exact List.count_pos_iff

/-- `Counter(words)` has pairwise-distinct keys. -/
theorem countWords_keys_nodup (ws : List String) :
    ((countWords ws).map Prod.fst).Nodup := by
  rw [countWords]
  suffices h : ∀ acc : List (String × Nat), (acc.map Prod.fst).Nodup →
      ((ws.foldl incrCount acc).map Prod.fst).Nodup by
    exact h [] List.nodup_nil
  induction ws with
  | nil => exact fun acc h => h
  | cons w ws' ih =>
    intro acc hacc
    rw [List.foldl_cons]
    refine ih _ ?_
    rw [keys_incrCount]
    by_cases hw : w ∈ acc.map Prod.fst
    · rwa [if_pos hw]
    · rw [if_neg hw]
      rw [List.nodup_append]
      exact ⟨hacc, List.nodup_singleton w,
        fun a ha hb => hw ((List.mem_singleton.mp hb) ▸ ha)⟩

/-- `Counter(words)` has positive counts. -/
theorem countWords_pos (ws : List String) :
    ∀ p ∈ countWords ws, 0 < p.2 := by
  rw [countWords]
  suffices h : ∀ acc : List (String × Nat), (∀ p ∈ acc, 0 < p.2) →
      ∀ p ∈ ws.foldl incrCount acc, 0 < p.2 by
    exact h [] (by intro p hp; cases hp)
  induction ws with
  | nil => exact fun acc h => h
  | cons w ws' ih =>
    intro acc hacc
    rw [List.foldl_cons]
    exact ih _ (incrCount_pos acc w hacc)

/-- A recorded term-frequency map has a positive count for `t` exactly
when `t` is among its keys. -/
theorem countOf_pos_iff_mem_keys (e : String × List (String × Nat))
    (h : tfEntryWF e) (t : String) :
    0 < countOf e.2 t ↔ t ∈ e.2.map Prod.fst := by
  constructor
  · intro hpos
    rw [countOf] at hpos
    cases hfind : e.2.find? (fun p => p.1 = t) with
    | none => rw [hfind] at hpos; cases hpos
    | some p =>
      have hp1 : p.1 = t := by simpa using List.find?_some hfind
      exact hp1 ▸ List.mem_map_of_mem Prod.fst
        (List.mem_of_find?_eq_some hfind)
  · intro hmem
    rw [countOf]
    cases hfind : e.2.find? (fun p => p.1 = t) with
    | none =>
      rcases List.mem_map.mp hmem with ⟨p, hp, hp1⟩
      have := List.find?_eq_none.mp hfind p hp
      simp [hp1] at this
    | some p =>
      have := h.2 p (List.mem_of_find?_eq_some hfind)
      simpa using this

/-- Pointwise bumps accumulate occurrence counts. -/
theorem foldl_bumpDF_count (ws : List String) (df : String → Nat)
    (t : String) : (ws.foldl bumpDF df) t = df t + ws.count t := by
  induction ws generalizing df with
  | nil => simp
  | cons w ws' ih =>
    rw [List.foldl_cons, ih, List.count_cons, bumpDF]
    by_cases h : t = w
    · subst h
      simp
      omega
    · simp [h, Ne.symm h]

/-- The document-frequency recomputation counts, for each term, the
surviving term-frequency maps that mention it. -/
theorem recomputeDF_eq (tfs : List (String × List (String × Nat)))
    (h : ∀ e ∈ tfs, tfEntryWF e) (t : String) :
    recomputeDF tfs t =
      tfs.countP (fun e => decide (0 < countOf e.2 t)) := by
  rw [recomputeDF]
  suffices hgen : ∀ df : String → Nat,
      (tfs.foldl (fun df e => e.2.foldl (fun df p => bumpDF df p.1) df)
        df) t = df t + tfs.countP (fun e => decide (0 < countOf e.2 t)) by
    rw [hgen]
    simp
  induction tfs with
  | nil => intro df; simp
  | cons e tfs' ih =>
    intro df
    have he := h e (List.mem_cons_self _ _)
    have hrest : ∀ x ∈ tfs', tfEntryWF x :=
      fun x hx => h x (List.mem_cons_of_mem _ hx)
    rw [List.foldl_cons, ih hrest, List.countP_cons]
    have hinner : (e.2.foldl (fun df p => bumpDF df p.1) df) t =
        df t + (e.2.map Prod.fst).count t := by
      rw [← List.foldl_map, foldl_bumpDF_count]
    rw [hinner]
    by_cases hmem : t ∈ e.2.map Prod.fst
    · have hcount : (e.2.map Prod.fst).count t = 1 := by
        have hle := List.nodup_iff_count_le_one.mp he.1 t
        have hpos := List.count_pos_iff.mpr hmem
        omega
      have : decide (0 < countOf e.2 t) = true := by
        simpa using (countOf_pos_iff_mem_keys e he t).mpr hmem
      rw [hcount, this]
      simp
      omega
    · have hcount : (e.2.map Prod.fst).count t = 0 :=
        List.count_eq_zero.mpr hmem
      have : decide (0 < countOf e.2 t) = false := by
        simp only [decide_eq_false_iff_not]
        intro hpos
        exact hmem ((countOf_pos_iff_mem_keys e he t).mp hpos)
      rw [hcount, this]
      simp

/-- Iterated per-document key removal is a single filter against the
removed id set. -/
theorem foldl_filter_remove {β : Type} (ds : List IndexedDoc)
    (m : List (String × β)) :
    ds.foldl (fun acc d => acc.filter (fun e => e.1 ≠ d.doc_id)) m =
      m.filter (fun e => decide (e.1 ∉ ds.map IndexedDoc.doc_id)) := by
  induction ds generalizing m with
  | nil => simp
  | cons d ds' ih =>
    rw [List.foldl_cons, ih, List.filter_filter]
    refine List.filter_congr ?_
    intro e _
    by_cases h1 : e.1 ∈ ds'.map IndexedDoc.doc_id
    · simp [h1]
    · by_cases h2 : e.1 = d.doc_id
      · simp [h1, h2]
      · simp [h1, h2]

/-- Mapping a projection past a filter on that projection. -/
theorem map_filter_comp {α β : Type} (f : α → β) (p : β → Bool)
    (l : List α) :
    (l.filter (fun a => p (f a))).map f = (l.map f).filter p := by
  induction l with
  | nil => rfl
  | cons a l' ih =>
    by_cases h : p (f a)
    · simp [List.filter_cons, h, ih]
    · simp [List.filter_cons, h, ih]

/-- After `delete_session_data` the term-frequency dict is keyed exactly
by the surviving documents. -/
theorem kDelete_keys_eq (st : KState) (hwf : kWF st) :
    (kDeleteSessionData st).2.term_frequencies.map Prod.fst =
      (kDeleteSessionData st).2.documents.map IndexedDoc.doc_id := by
  have hids : (st.documents.map IndexedDoc.doc_id).Nodup :=
    hwf.2.1 ▸ hwf.1
  have hinj : ∀ x ∈ st.documents, ∀ y ∈ st.documents,
      x.doc_id = y.doc_id → x = y :=
    List.inj_on_of_nodup_map hids
  simp only [kDeleteSessionData]
  rw [foldl_filter_remove]
  have hdocs : st.documents.filter (fun d =>
      !(metaGet d.metadata "session_id" == some st.session_id)) =
      st.documents.filter (fun d => decide (d.doc_id ∉
        (st.documents.filter (fun d' =>
          metaGet d'.metadata "session_id" ==
            some st.session_id)).map IndexedDoc.doc_id)) := by
    refine List.filter_congr ?_
    intro d hd
    by_cases hs : metaGet d.metadata "session_id" = some st.session_id
    · have : d.doc_id ∈ (st.documents.filter (fun d' =>
          metaGet d'.metadata "session_id" ==
            some st.session_id)).map IndexedDoc.doc_id := by
        refine List.mem_map_of_mem _ ?_
        exact List.mem_filter.mpr ⟨hd, by simp [hs]⟩
      simp [hs, this]
    · have : d.doc_id ∉ (st.documents.filter (fun d' =>
          metaGet d'.metadata "session_id" ==
            some st.session_id)).map IndexedDoc.doc_id := by
        intro hmem
        rcases List.mem_map.mp hmem with ⟨d', hd', hid⟩
        rcases List.mem_filter.mp hd' with ⟨hd'mem, hd'sess⟩
        have : d = d' := hinj d hd d' hd'mem hid.symm
        exact hs (by subst this; simpa using hd'sess)
      simp [hs, this]
  rw [hdocs]
  have h1 := map_filter_comp Prod.fst
    (fun k => decide (k ∉ (st.documents.filter (fun d' =>
      metaGet d'.metadata "session_id" ==
        some st.session_id)).map IndexedDoc.doc_id)) st.term_frequencies
  have h2 := map_filter_comp IndexedDoc.doc_id
    (fun k => decide (k ∉ (st.documents.filter (fun d' =>
      metaGet d'.metadata "session_id" ==
        some st.session_id)).map IndexedDoc.doc_id)) st.documents
  rw [h1, h2, hwf.2.1]

/-- After `delete_session_data` (a full recomputation, requiring no
document-frequency precondition) every term's document frequency counts
the surviving term-frequency maps that record it positively. -/
theorem kDelete_dfInvariant (st : KState) (hwf : kWF st) :
    dfInvariant (kDeleteSessionData st).2 := by
  intro t
  simp only [kDeleteSessionData]
  refine recomputeDF_eq _ ?_ t
  intro e he
  rw [foldl_filter_remove] at he
  exact hwf.2.2 e (List.mem_filter.mp he).1

/-- One ingestion-loop step preserves well-formedness and the
document-frequency invariant when the new chunk id is fresh. -/
theorem kIndexChunk_invariant (sid docId ts : String) (md : Meta)
    (st : KState) (q : Nat × String) (hwf : kWF st)
    (hinv : dfInvariant st)
    (hfresh : chunkId docId q.1 ∉ st.term_frequencies.map Prod.fst) :
    kWF (kIndexChunk sid docId ts md st q) ∧
    dfInvariant (kIndexChunk sid docId ts md st q) ∧
    (kIndexChunk sid docId ts md st q).term_frequencies.map Prod.fst =
      st.term_frequencies.map Prod.fst ++ [chunkId docId q.1] := by
  have hkeys : (kIndexChunk sid docId ts md st q).term_frequencies.map
      Prod.fst = st.term_frequencies.map Prod.fst ++ [chunkId docId q.1] := by
    simp [kIndexChunk]
  refine ⟨⟨?_, ?_, ?_⟩, ?_, hkeys⟩
  · rw [hkeys, List.nodup_append]
    exact ⟨hwf.1, List.nodup_singleton _,
      fun a ha hb => hfresh ((List.mem_singleton.mp hb) ▸ ha)⟩
  · rw [hkeys, hwf.2.1]
    simp [kIndexChunk]
  · intro e he
    simp only [kIndexChunk, List.mem_append] at he
    rcases he with he | he
    · exact hwf.2.2 e he
    · rcases List.mem_singleton.mp he with rfl
      exact ⟨countWords_keys_nodup _, countWords_pos _⟩
  · intro t
    have hdf : (kIndexChunk sid docId ts md st q).document_frequencies t =
        st.document_frequencies t +
          (preprocessText q.2).dedup.count t := by
      simp only [kIndexChunk]
      rw [foldl_bumpDF_count]
    have htfs : (kIndexChunk sid docId ts md st q).term_frequencies =
        st.term_frequencies ++
          [(chunkId docId q.1, countWords (preprocessText q.2))] := by
      simp [kIndexChunk]
    rw [hdf, htfs, List.countP_append, hinv t, List.count_dedup]
    have hone : (List.countP (fun e => decide (0 < countOf e.2 t))
        [(chunkId docId q.1, countWords (preprocessText q.2))]) =
        if t ∈ preprocessText q.2 then 1 else 0 := by
      rw [List.countP_cons, List.countP_nil]
      by_cases hm : t ∈ preprocessText q.2
      · rw [if_pos hm]
        have := (countOf_countWords_pos (preprocessText q.2) t).mpr hm
        simp [this]
      · rw [if_neg hm]
        have : ¬0 < countOf (countWords (preprocessText q.2)) t :=
          fun hpos => hm ((countOf_countWords_pos _ t).mp hpos)
        simp [this]
    rw [hone]

/-- The ingestion loop preserves well-formedness and the invariant for
any batch of chunks with fresh, pairwise-distinct ids. -/
theorem kIndexChunk_fold_invariant (sid docId ts : String) (md : Meta)
    (L : List (Nat × String)) (st : KState) (hwf : kWF st)
    (hinv : dfInvariant st)
    (hfresh : ∀ q ∈ L, chunkId docId q.1 ∉
      st.term_frequencies.map Prod.fst)
    (hnodupL : (L.map (fun q => chunkId docId q.1)).Nodup) :
    kWF (L.foldl (kIndexChunk sid docId ts md) st) ∧
    dfInvariant (L.foldl (kIndexChunk sid docId ts md) st) := by
  induction L generalizing st with
  | nil => exact ⟨hwf, hinv⟩
  | cons q L' ih =>
    rw [List.foldl_cons]
    obtain ⟨hwf1, hinv1, hkeys1⟩ := kIndexChunk_invariant sid docId ts md
      st q hwf hinv (hfresh q (List.mem_cons_self _ _))
    rw [List.map_cons, List.nodup_cons] at hnodupL
    refine ih _ hwf1 hinv1 ?_ hnodupL.2
    intro q' hq'
    rw [hkeys1, List.mem_append]
    rintro (h | h)
    · exact hfresh q' (List.mem_cons_of_mem _ hq') h
    · rcases List.mem_singleton.mp h with heq
      exact hnodupL.1 (heq ▸ List.mem_map_of_mem _ hq')

/-- C6: after a completed `index_document` with a fresh document id, and
after any `delete_session_data` (which fully recomputes document
frequencies from the surviving term-frequency maps rather than
decrementing), every term's document frequency equals the number of
currently-held chunks whose recorded term frequency for it is positive:
the df function counts the recorded maps, and the recorded maps are
keyed exactly by the held chunks. -/
theorem df_invariant_maintained (st : KState) (document : String)
    (metadata : Meta) (docId ts : String) (chunkSize : Nat)
    (hwf : kWF st) (hinv : dfInvariant st)
    (hfresh : ∀ i < (chunkText chunkSize document).length,
      chunkId docId i ∉ st.term_frequencies.map Prod.fst)
    (hnodup : ((List.range (chunkText chunkSize document).length).map
      (chunkId docId)).Nodup) :
    (dfInvariant (kIndexDocument chunkSize st document metadata docId ts) ∧
      (kIndexDocument chunkSize st document metadata docId
          ts).term_frequencies.map Prod.fst =
        (kIndexDocument chunkSize st document metadata docId
          ts).documents.map IndexedDoc.doc_id) ∧
    (dfInvariant (kDeleteSessionData st).2 ∧
      (kDeleteSessionData st).2.term_frequencies.map Prod.fst =
        (kDeleteSessionData st).2.documents.map IndexedDoc.doc_id) := by
  have henum1 : ∀ q ∈ (chunkText chunkSize document).enum,
      chunkId docId q.1 ∉ st.term_frequencies.map Prod.fst := by
    intro q hq
    refine hfresh q.1 ?_
    rw [List.enum_eq_zip_range] at hq
    exact List.mem_range.mp (List.of_mem_zip hq).1
  have henum2 : ((chunkText chunkSize document).enum.map
      (fun q => chunkId docId q.1)).Nodup := by
    have : (chunkText chunkSize document).enum.map
        (fun q => chunkId docId q.1) =
        ((chunkText chunkSize document).enum.map Prod.fst).map
          (chunkId docId) := by
      rw [List.map_map]
      rfl
    rw [this, List.enum_map_fst]
    exact hnodup
  obtain ⟨hwf', hinv'⟩ := kIndexChunk_fold_invariant st.session_id docId ts
    metadata (chunkText chunkSize document).enum st hwf hinv henum1 henum2
  refine ⟨⟨?_, ?_⟩, kDelete_dfInvariant st hwf, kDelete_keys_eq st hwf⟩
  · intro t
    exact hinv' t
  · exact hwf'.2.1

/-- C6 witness: the empty state, a fresh document id and one document. -/
theorem df_invariant_maintained_witness :
    kWF (kInit "s") ∧ dfInvariant (kInit "s") ∧
    ((dfInvariant (kIndexDocument 100 (kInit "s") "a a b" [] "d0" "t0") ∧
      (kIndexDocument 100 (kInit "s") "a a b" [] "d0"
          "t0").term_frequencies.map Prod.fst =
        (kIndexDocument 100 (kInit "s") "a a b" [] "d0"
          "t0").documents.map IndexedDoc.doc_id) ∧
    (dfInvariant (kDeleteSessionData (kInit "s")).2 ∧
      (kDeleteSessionData (kInit "s")).2.term_frequencies.map Prod.fst =
        (kDeleteSessionData (kInit "s")).2.documents.map
          IndexedDoc.doc_id)) :=
  ⟨⟨by decide, by decide, by intro e he; cases he⟩, fun _ => rfl,
   df_invariant_maintained (kInit "s") "a a b" [] "d0" "t0" 100
     ⟨by decide, by decide, by intro e he; cases he⟩ (fun _ => rfl)
     (fun _ _ => List.not_mem_nil _) (by decide)⟩

/-- The two-chunk state of end-to-end scenario B: chunk size 20 forces
"Python is great. SQL is also great." into two one-sentence chunks. -/
theorem scenarioB_chunks :
    chunkText 20 "Python is great. SQL is also great." =
      ["Python is great", "SQL is also great"] := by decide

/-- Both scenario-B chunks score zero for the query "Python": the only
query term has df = 1 out of N = 2 chunks, so its idf is ln 1 = 0. -/
theorem scenarioB_scores_zero :
    calcBM25 (kIndexDocument 20 (kInit "s")
        "Python is great. SQL is also great." [] "d0" "t0") ["python"]
      "d0_0" = 0 ∧
    calcBM25 (kIndexDocument 20 (kInit "s")
        "Python is great. SQL is also great." [] "d0" "t0") ["python"]
      "d0_1" = 0 := by
  constructor
  · have hfind : (kIndexDocument 20 (kInit "s")
        "Python is great. SQL is also great." [] "d0"
        "t0").term_frequencies.find? (fun e => e.1 = "d0_0") =
        some ("d0_0", [("python", 1), ("is", 1), ("great", 1)]) := by
      decide
    have hpy : ([("python", 1), ("is", 1), ("great", 1)] :
        List (String × Nat)).find? (fun p => p.1 = "python") =
        some ("python", 1) := by decide
    have hdf : (kIndexDocument 20 (kInit "s")
        "Python is great. SQL is also great." [] "d0"
        "t0").document_frequencies "python" = 1 := by decide
    have hN : (kIndexDocument 20 (kInit "s")
        "Python is great. SQL is also great." [] "d0"
        "t0").total_documents = 2 := by decide
    simp only [calcBM25, hfind, List.foldl_cons, List.foldl_nil, hpy, hdf,
      hN]
    rw [if_neg (by norm_num), bm25TermContribution]
    have hone : ((((2 : Nat) : ℚ) : ℝ) - (((1 : Nat) : ℚ) : ℝ) + 1 / 2) /
        ((((1 : Nat) : ℚ) : ℝ) + 1 / 2) = 1 := by
      push_cast
      norm_num
    rw [hone, Real.log_one, zero_mul, add_zero]
  · have hfind : (kIndexDocument 20 (kInit "s")
        "Python is great. SQL is also great." [] "d0"
        "t0").term_frequencies.find? (fun e => e.1 = "d0_1") =
        some ("d0_1", [("sql", 1), ("is", 1), ("also", 1), ("great", 1)]) := by
      decide
    have hpy : ([("sql", 1), ("is", 1), ("also", 1), ("great", 1)] :
        List (String × Nat)).find? (fun p => p.1 = "python") = none := by
      decide
    simp only [calcBM25, hfind, List.foldl_cons, List.foldl_nil, hpy]

/-- In scenario B the keyword search for "Python" returns the empty
list: both chunks score zero and are dropped by the positive-score
filter. -/
theorem scenarioB_search_empty :
    kSearch (kIndexDocument 20 (kInit "s")
      "Python is great. SQL is also great." [] "d0" "t0") "Python" 5 [] =
      [] := by
  rw [kSearch, if_neg (by decide), if_neg (by decide)]
  suffices h : scoredCandidates (kIndexDocument 20 (kInit "s")
      "Python is great. SQL is also great." [] "d0" "t0")
      (preprocessText "Python") [] = [] by
    rw [h]
    simp [sortByScoreDesc]
  refine List.filterMap_eq_nil_iff.mpr ?_
  intro d hd
  have hq : preprocessText "Python" = ["python"] := by decide
  have hid : d.doc_id = "d0_0" ∨ d.doc_id = "d0_1" := by
    have hids : (kIndexDocument 20 (kInit "s")
        "Python is great. SQL is also great." [] "d0"
        "t0").documents.map IndexedDoc.doc_id = ["d0_0", "d0_1"] := by
      decide
    have hmem := List.mem_map_of_mem IndexedDoc.doc_id hd
    rw [hids] at hmem
    simpa using hmem
  have hscore : calcBM25 (kIndexDocument 20 (kInit "s")
      "Python is great. SQL is also great." [] "d0" "t0")
      (preprocessText "Python") d.doc_id = 0 := by
    rw [hq]
    rcases hid with h | h
    · rw [h]
      exact scenarioB_scores_zero.1
    · rw [h]
      exact scenarioB_scores_zero.2
  by_cases hp : kPassesFilters (kIndexDocument 20 (kInit "s")
      "Python is great. SQL is also great." [] "d0" "t0") d.metadata []
  · simp only [scoredCandidates, hp, if_true, hscore]
    rw [if_neg (lt_irrefl 0)]
  · simp only [scoredCandidates, hp]
    rfl

/-- C7 counterexample: in scenario B the search for "Python" returns the
empty list, so no ranking places the "Python" chunk above the other
chunk — the "Python" chunk is not returned at all, even though the text
was split into exactly the two expected chunks. -/
theorem scenarioB_counterexample :
    chunkText 20 "Python is great. SQL is also great." =
      ["Python is great", "SQL is also great"] ∧
    (kIndexDocument 20 (kInit "s") "Python is great. SQL is also great."
        [] "d0" "t0").documents.map IndexedDoc.content =
      ["Python is great", "SQL is also great"] ∧
    kSearch (kIndexDocument 20 (kInit "s")
      "Python is great. SQL is also great." [] "d0" "t0") "Python" 5 [] =
      [] :=
  ⟨by decide, by decide, scenarioB_search_empty⟩

/-- C7 amended: with chunk size 20 the text is split into the two
expected chunks, but `search("Python")` returns no results: the sole
query term has document frequency 1 out of N = 2 chunks, so its idf
factor is ln((2-1+0.5)/(1+0.5)) = ln 1 = 0, the cumulative scores of
both chunks are 0, and chunks with score ≤ 0 are excluded before
ranking; in
particular the chunk not containing "Python" is not returned either. -/
theorem scenarioB_amended :
    (kIndexDocument 20 (kInit "s") "Python is great. SQL is also great."
        [] "d0" "t0").documents.length = 2 ∧
    calcBM25 (kIndexDocument 20 (kInit "s")
        "Python is great. SQL is also great." [] "d0" "t0") ["python"]
      "d0_0" = 0 ∧
    calcBM25 (kIndexDocument 20 (kInit "s")
        "Python is great. SQL is also great." [] "d0" "t0") ["python"]
      "d0_1" = 0 ∧
    kSearch (kIndexDocument 20 (kInit "s")
      "Python is great. SQL is also great." [] "d0" "t0") "Python" 5 [] =
      [] :=
  ⟨by decide, scenarioB_scores_zero.1, scenarioB_scores_zero.2,
   scenarioB_search_empty⟩

end ResumeRAG
